import Mathlib

set_option autoImplicit false

/-!
Shallow embedding of `scripts/upload_images.py` (the MAS image upload tool):
manifest parsing, placeholder-to-glob translation, fuzzy file matching,
the resumable progress store, docker load/tag/push orchestration with
per-pattern fault isolation, the validate mode, and the CLI driver checks.

Conventions of the embedding:
* a text file is its list of lines (without terminators);
* a directory is the list of names of its regular files, in the order
  `Path.glob` enumerates them;
* a Python `dict` (the progress record, the manifest sections) is an
  insertion-ordered association list with unique keys;
* the external docker binary is an oracle (`DockerWorld`) mapping each
  invocation to success or to the `RuntimeError` message `run_cmd` would
  raise for it; the invocations actually executed are collected in a trace.
-/

namespace UploadImages

/-- The ASCII whitespace characters recognised by Python `str.strip()`. -/
def isPySpace (c : Char) : Bool :=
  c == ' ' || c == '\t' || c == '\n' || c == '\r' || c == '\x0b' || c == '\x0c'

/-- Python `s.strip()`: drop whitespace from both ends. -/
def pyStrip (cs : List Char) : List Char :=
  ((cs.dropWhile isPySpace).reverse.dropWhile isPySpace).reverse

/-- Python `s.lstrip("#")`: drop every leading `#`. -/
def lstripHash (cs : List Char) : List Char := cs.dropWhile (· == '#')

/-- `needle in haystack` on character lists (Python substring test). -/
def containsSub (needle : List Char) : List Char → Bool
  | [] => needle.isEmpty
  | c :: cs => needle.isPrefixOf (c :: cs) || containsSub needle cs

/-- Python `name.endswith(suffix)`. -/
def pyEndsWith (suffix name : List Char) : Bool := suffix.isSuffixOf name

-- ### Manifest parsing (`parse_manifest`, `get_image_patterns`)

/-- `sections.setdefault(section, []).append(line)`: append `v` to the list held
under key `k` (keys are unique, as in a Python dict), or add a new `(k, [v])`
entry at the end. -/
def appendToSection : List (String × List String) → String → String → List (String × List String)
  | [], k, v => [(k, [v])]
  | (k', vs) :: rest, k, v =>
    if k' = k then (k', vs ++ [v]) :: rest else (k', vs) :: appendToSection rest k v

/-- The line loop of `parse_manifest`: strip each line, skip blanks, a line
starting with `#` selects the current section (name = `line.lstrip("#").strip()`),
any other line is appended to the current section. -/
def parseLines : List (String × List String) → String → List String → List (String × List String)
  | secs, _, [] => secs
  | secs, cur, l :: ls =>
    let t := pyStrip l.data
    if t.isEmpty then parseLines secs cur ls
    else if t.head? = some '#' then parseLines secs ⟨pyStrip (lstripHash t)⟩ ls
    else parseLines (appendToSection secs cur ⟨t⟩) cur ls

/-- `parse_manifest`: sections start empty, the current section starts as
`"default"`. -/
def parse_manifest (lines : List String) : List (String × List String) :=
  parseLines [] "default" lines

/-- `get_image_patterns`: the pattern list of the first section whose name
contains `镜像`; if none, the concatenation of all sections' patterns. -/
def get_image_patterns (lines : List String) : List String :=
  let secs := parse_manifest lines
  match secs.find? (fun kv => containsSub "镜像".data kv.1.data) with
  | some kv => kv.2
  | none => secs.foldr (fun kv acc => kv.2 ++ acc) []

-- ### Pattern-to-glob translation (`pattern_to_glob`)

/-- Emit a pending run of `n` placeholder characters `x`: a maximal run of three
or more becomes a single `*`, a shorter run is kept verbatim.  Together with
`globAux` this is `re.sub(r"x{3,}", "*", s)` (the regex is greedy, so it always
consumes a maximal run). -/
def emitRun (n : Nat) (tail : List Char) : List Char :=
  if 3 ≤ n then '*' :: tail else List.replicate n 'x' ++ tail

/-- Scan the pattern, counting the current run of `x` characters. -/
def globAux : Nat → List Char → List Char
  | n, [] => emitRun n []
  | n, c :: cs => if c = 'x' then globAux (n + 1) cs else emitRun n (c :: globAux 0 cs)

/-- `pattern_to_glob`: replace placeholder sequences (`xxx`...) with `*`. -/
def pattern_to_glob (s : String) : String := ⟨globAux 0 s.data⟩

-- ### Target reference construction (`build_target_ref`)

/-- Python `s.split("/")` (single-character separator, no empty-string corner
cases: the result is never empty). -/
def splitSlashAux (acc : List Char) : List Char → List (List Char)
  | [] => [acc.reverse]
  | c :: cs => if c = '/' then acc.reverse :: splitSlashAux [] cs else splitSlashAux (c :: acc) cs

/-- `loaded_ref.split("/")`. -/
def splitSlash (s : String) : List String := (splitSlashAux [] s.data).map (⟨·⟩)

/-- Python `"/".join(parts)`. -/
def joinSlash : List String → String
  | [] => ""
  | [p] => p
  | p :: ps => p ++ "/" ++ joinSlash ps

/-- `build_target_ref`: strip an existing registry host (and namespace) from
`loaded_ref`, then prepend `swr_endpoint/org`. -/
def build_target_ref (swr_endpoint org loaded_ref : String) : String :=
  let parts := splitSlash loaded_ref
  let name_tag :=
    if 2 ≤ parts.length ∧ ((parts.headD "").data.contains '.' || (parts.headD "").data.contains ':') then
      if 2 < parts.length then joinSlash (parts.drop 2) else parts.getD 1 ""
    else parts.getLastD ""
  swr_endpoint ++ "/" ++ org ++ "/" ++ name_tag

-- ### File matching (`find_matching_file`)

/-- The `SIG_SUFFIXES` constant: signature/checksum sidecar suffixes. -/
def SIG_SUFFIXES : List String := [".asc", ".cms", ".p7s", ".crl", ".sha256"]

/-- Shell-style wildcard matching with explicit fuel (each recursive call
strictly shrinks `pattern.length + input.length`, so the fuel used by
`globMatch` below is never exhausted): `*` matches any character sequence,
`?` any single character, every other pattern character matches itself. -/
def globMatchFuel : Nat → List Char → List Char → Bool
  | 0, _, _ => false
  | _ + 1, [], [] => true
  | _ + 1, [], _ :: _ => false
  | n + 1, '*' :: ps, [] => globMatchFuel n ps []
  | n + 1, '*' :: ps, c :: cs =>
    globMatchFuel n ps (c :: cs) || globMatchFuel n ('*' :: ps) cs
  | n + 1, '?' :: ps, _ :: cs => globMatchFuel n ps cs
  | _ + 1, _ :: _, [] => false
  | n + 1, p :: ps, c :: cs => (p = c) && globMatchFuel n ps cs

/-- The core of `fnmatch` as used by `Path.glob`.  (Character classes and the
hidden-file rule are not exercised by any manifest pattern the claims
mention.) -/
def globMatch (pat s : List Char) : Bool :=
  globMatchFuel (pat.length + s.length + 1) pat s

/-- `find_matching_file`: glob-expand the pattern against the directory's
regular files, drop signature sidecars, return the first match (warning on
several) or `none`. -/
def find_matching_file (dir : List String) (pattern : String) : Option String :=
  let glob_pat := pattern_to_glob pattern
  let hits := dir.filter (fun name =>
    globMatch glob_pat.data name.data &&
    !(SIG_SUFFIXES.any (fun s => pyEndsWith s.data name.data)))
  hits.head?

-- ### Progress store (`load_progress` / `save_progress` / reset)

/-- The progress record: a Python dict `key -> status` as an insertion-ordered
association list with unique keys. -/
abbrev Progress := List (String × String)

/-- `progress.get(k)`. -/
def lookupKey (p : Progress) (k : String) : Option String :=
  (p.find? (fun kv => kv.1 = k)).map (·.2)

/-- `progress[k] = v`: overwrite in place, or append a new entry. -/
def setKey : Progress → String → String → Progress
  | [], k, v => [(k, v)]
  | kv :: rest, k, v => if kv.1 = k then (k, v) :: rest else kv :: setKey rest k v

/-- `progress.pop(k, None)`: remove the (unique) entry with key `k`, if any. -/
def popKey : Progress → String → Progress
  | [], _ => []
  | kv :: rest, k => if kv.1 = k then rest else kv :: popKey rest k

/-- The `--reset` branch of `main`: no names clears the whole record, named
arguments pop exactly those keys. -/
def resetProgress (names : List String) (p : Progress) : Progress :=
  if names.isEmpty then [] else names.foldl popKey p

-- ### Docker operations (`run_cmd`, `docker_load`, `docker_tag`, `docker_push`, `docker_rmi`)

/-- One executed subprocess invocation, or a `save_progress` write of the
progress file. -/
inductive Ev where
  | load (tarball : String)
  | tag (source target : String)
  | push (target : String)
  | rmi (ref : String)
  | save (progress : Progress)
deriving DecidableEq, Repr

/-- The external docker binary as a deterministic oracle.  For `docker load`
(run with `capture=True`) success carries `result.stdout.splitlines()`; an
error carries the `RuntimeError` message `run_cmd` raises on a non-zero exit
(`"Command failed (exit n): ..."`). -/
structure DockerWorld where
  load : String → Except String (List String)
  tag : String → String → Except String Unit
  push : String → Except String Unit
  rmi : String → Except String Unit

/-- `Path(tarball).stem`: final path component, last suffix removed. -/
def pyStem (s : String) : String :=
  let name := (splitSlash s).getLastD ""
  match name.data with
  | [] => ""
  | c :: cs =>
    if (cs.reverse.takeWhile (· ≠ '.')).length < cs.length
    then ⟨c :: (cs.reverse.dropWhile (· ≠ '.')).tail.reverse⟩
    else name

/-- Case-insensitive literal match: `pat` (already lowercase) against the head
of `input`; returns the rest of the input on success. -/
def matchCI : List Char → List Char → Option (List Char)
  | [], rest => some rest
  | _ :: _, [] => none
  | p :: ps, c :: cs => if c.toLower = p then matchCI ps cs else none

/-- One line of `docker load` output against `re.match(r"Loaded image(?:\s+ID)?:\s*(.+)", line, re.IGNORECASE)`,
followed by `.strip()` on the captured group.  The optional `\s+ID` part is
whitespace then `id` (case-insensitive); after the colon, `\s*(.+)` succeeds
exactly when anything is left, and group-1-then-strip amounts to stripping the
remainder. -/
def parseLoadedLine (line : String) : Option String :=
  match matchCI "loaded image".data line.data with
  | none => none
  | some rest =>
    let afterColon :=
      match (if (rest.takeWhile isPySpace).isEmpty then none
             else matchCI "id:".data (rest.dropWhile isPySpace)) with
      | some r => some r
      | none => match rest with
        | ':' :: r => some r
        | _ => none
    match afterColon with
    | none => none
    | some r => if r.isEmpty then none else some ⟨pyStrip r⟩

/-- `docker_load`: in dry-run, a synthetic `dry-run/<stem>:latest` reference;
otherwise run `docker load -i`, parse each stdout line, and raise if no
reference was recognised. -/
def docker_load (w : DockerWorld) (dry_run : Bool) (tarball : String) :
    Except String (List String) :=
  if dry_run then .ok ["dry-run/" ++ pyStem tarball ++ ":latest"]
  else match w.load tarball with
    | .error e => .error e
    | .ok outLines =>
      let images := outLines.filterMap parseLoadedLine
      if images.isEmpty then
        .error ("Could not parse loaded image from output:\n" ++ String.intercalate "\n" outLines)
      else .ok images

/-- `docker_tag` through `run_cmd`: in dry-run nothing is executed; otherwise
the subprocess runs (recorded in the trace) and a non-zero exit raises the
`RuntimeError` message. -/
def docker_tag (w : DockerWorld) (dry_run : Bool) (source target : String) :
    Except String Unit × List Ev :=
  if dry_run then (.ok (), []) else (w.tag source target, [.tag source target])

/-- `docker_push` through `run_cmd`. -/
def docker_push (w : DockerWorld) (dry_run : Bool) (target : String) :
    Except String Unit × List Ev :=
  if dry_run then (.ok (), []) else (w.push target, [.push target])

/-- `docker_rmi`: best-effort, a failure is only logged, so only the trace
remains. -/
def docker_rmi (dry_run : Bool) (ref : String) : List Ev :=
  if dry_run then [] else [.rmi ref]

-- ### Core pipeline (`process_image`)

/-- The parsed `config.yaml` keys the tool reads; `Option` marks keys whose
absence raises `KeyError` (for `cfg["swr"][...]`) or is tested by `main`
(for `assets_file`). -/
structure Cfg where
  assets_file : Option String
  swr_endpoint : Option String
  swr_org : Option String
  cleanup_after_push : Bool

/-- The `for loaded_ref in loaded_images` loop of `process_image`: skip
references already `done`, otherwise tag, push, optionally clean up, mark
`done` and persist.  The third component is the `RuntimeError` message of the
first failing invocation, which aborts the loop (the `try` block unwinds to
the handler in `process_image`). -/
def processRefs (w : DockerWorld) (dry_run cleanup : Bool) (ep org : String) :
    List String → Progress → Progress × List Ev × Option String
  | [], p => (p, [], none)
  | r :: rest, p =>
    if lookupKey p r = some "done" then
      processRefs w dry_run cleanup ep org rest p
    else
      let target := build_target_ref ep org r
      let (tagRes, tagEv) := docker_tag w dry_run r target
      match tagRes with
      | .error e => (p, tagEv, some e)
      | .ok _ =>
        let (pushRes, pushEv) := docker_push w dry_run target
        match pushRes with
        | .error e => (p, tagEv ++ pushEv, some e)
        | .ok _ =>
          let cleanEv := if cleanup then docker_rmi dry_run r ++ docker_rmi dry_run target else []
          let p1 := setKey p r "done"
          let (p2, evs, err) := processRefs w dry_run cleanup ep org rest p1
          (p2, tagEv ++ pushEv ++ cleanEv ++ [.save p1] ++ evs, err)

/-- The `try ... except RuntimeError` body of `process_image` once a tarball is
matched and the `swr` keys are read: load, loop over the references, and on a
`RuntimeError` record `failed: <message>` keyed by the original pattern and
persist. -/
def process_image_core (w : DockerWorld) (dry_run cleanup : Bool) (ep org : String)
    (pattern tarball : String) (p : Progress) : Progress × List Ev :=
  let loadEv : List Ev := if dry_run then [] else [.load tarball]
  match docker_load w dry_run tarball with
  | .error e =>
    let p1 := setKey p pattern ("failed: " ++ e)
    (p1, loadEv ++ [.save p1])
  | .ok refs =>
    let (p1, evs, err) := processRefs w dry_run cleanup ep org refs p
    match err with
    | none => (p1, loadEv ++ evs)
    | some e =>
      let p2 := setKey p1 pattern ("failed: " ++ e)
      (p2, loadEv ++ evs ++ [.save p2])

/-- `process_image`: match the pattern (recording `missing` on failure), read
`cfg["swr"]["endpoint"]` / `cfg["swr"]["org"]` (a missing key raises an
uncaught `KeyError`, the `.error` case), then run the load/tag/push body. -/
def process_image (w : DockerWorld) (cfg : Cfg) (dir : List String)
    (pattern : String) (p : Progress) (dry_run : Bool) :
    Except Unit (Progress × List Ev) :=
  match find_matching_file dir pattern with
  | none =>
    let p1 := setKey p pattern "missing"
    .ok (p1, [.save p1])
  | some tarball =>
    match cfg.swr_endpoint, cfg.swr_org with
    | some ep, some org =>
      .ok (process_image_core w dry_run cfg.cleanup_after_push ep org pattern tarball p)
    | _, _ => .error ()

-- ### Driver (`main`)

/-- The pattern loop of `main`: each pattern is processed in sequence; an
uncaught `KeyError` aborts the loop (third component `true`). -/
def runPatterns (w : DockerWorld) (cfg : Cfg) (dir : List String) (dry_run : Bool) :
    List String → Progress → Progress × List Ev × Bool
  | [], p => (p, [], false)
  | pat :: rest, p =>
    match process_image w cfg dir pat p dry_run with
    | .error _ => (p, [], true)
    | .ok (p1, evs) =>
      let (p2, evs2, crashed) := runPatterns w cfg dir dry_run rest p1
      (p2, evs ++ evs2, crashed)

/-- Outcome of an upload-mode run of `main`: an early `sys.exit` before the
pattern loop, normal completion, or termination by an uncaught exception. -/
inductive MainResult where
  | earlyExit (code : Nat)
  | finished (p : Progress) (trace : List Ev)
  | crashed (p : Progress) (trace : List Ev)
deriving DecidableEq, Repr

/-- `main` in upload mode (no `--reset`, no `--validate`): config-file check,
`assets_file` check, manifest-existence check (each `sys.exit(1)`), then the
image-pattern extraction and the pattern loop. -/
def main_upload (w : DockerWorld) (configExists : Bool) (cfg : Cfg)
    (manifestExists : Bool) (manifestLines : List String) (dir : List String)
    (dry_run : Bool) (progress0 : Progress) : MainResult :=
  if !configExists then .earlyExit 1
  else match cfg.assets_file with
  | none => .earlyExit 1
  | some _ =>
    if !manifestExists then .earlyExit 1
    else
      let pats := get_image_patterns manifestLines
      if pats.isEmpty then .earlyExit 1
      else
        match runPatterns w cfg dir dry_run pats progress0 with
        | (p, t, true) => .crashed p t
        | (p, t, false) => .finished p t

-- ### Validation (`validate`)

/-- `Path(s).name`: the final path component. -/
def baseName (s : String) : String := (splitSlash s).getLastD ""

/-- `validate`: for every pattern of every section, in order, attempt a match;
found entries carry `(section, pattern, matched file name)`, missing entries
`(section, pattern)`. -/
def validate (manifestLines : List String) (dir : List String) :
    List (String × String × String) × List (String × String) :=
  let secs := parse_manifest manifestLines
  secs.foldl (fun acc kv =>
    kv.2.foldl (fun acc2 pat =>
      match find_matching_file dir pat with
      | some m => (acc2.1 ++ [(kv.1, pat, baseName m)], acc2.2)
      | none => (acc2.1, acc2.2 ++ [(kv.1, pat)])) acc) ([], [])

/-- The `--validate` branch of `main` (without `--reset`): run `validate` and
`sys.exit(1 if missing else 0)`; the progress file is never opened, so its
contents pass through unchanged. -/
def main_validate (manifestLines : List String) (dir : List String)
    (progressFile : Option Progress) : Nat × Option Progress :=
  (if (validate manifestLines dir).2.isEmpty then 0 else 1, progressFile)

-- ### Spec-side comparison definitions

/-- The target-reference rule as the spec words it: split on `/`; when there
are at least two segments and the first contains `.` or `:`, drop the first
one or two leading segments (two when a namespace segment is present) and keep
the rest; otherwise keep the last segment. -/
def target_ref_spec (swr_endpoint org loaded_ref : String) : String :=
  let parts := splitSlash loaded_ref
  let name_tag :=
    if 2 ≤ parts.length ∧ ((parts.headD "").data.contains '.' || (parts.headD "").data.contains ':') then
      joinSlash (parts.drop (if 2 < parts.length then 2 else 1))
    else parts.getLastD ""
  swr_endpoint ++ "/" ++ org ++ "/" ++ name_tag

/-- Concatenating all section pattern lists, in section order. -/
def flattenSections (secs : List (String × List String)) : List String :=
  (secs.map Prod.snd).flatten

/-- The trimmed non-blank, non-header lines of a manifest, in file order. -/
def contentLines (lines : List String) : List String :=
  lines.filterMap (fun l =>
    let t := pyStrip l.data
    if t.isEmpty then none else if t.head? = some '#' then none else some ⟨t⟩)

/-- The header names of a manifest (`line.lstrip("#").strip()`), in file
order. -/
def headerNames (lines : List String) : List String :=
  lines.filterMap (fun l =>
    let t := pyStrip l.data
    if t.head? = some '#' then some ⟨pyStrip (lstripHash t)⟩ else none)

/-- The key of the last accumulated section, if any. -/
def lastKey : List (String × List String) → Option String
  | [] => none
  | [kv] => some kv.1
  | _ :: r :: rest => lastKey (r :: rest)

-- ### Lemmas about section accumulation

theorem appendToSection_ne_nil (secs : List (String × List String)) (k v : String) :
    appendToSection secs k v ≠ [] := by
  cases secs with
  | nil => simp [appendToSection]
  | cons hd tl => simp only [appendToSection]; split <;> simp

theorem lastKey_cons_ne_nil (a : String × List String) (t : List (String × List String))
    (h : t ≠ []) : lastKey (a :: t) = lastKey t := by
  cases t with
  | nil => exact absurd rfl h
  | cons r rs => rfl

theorem mem_of_lastKey : ∀ (secs : List (String × List String)) (k : String),
    lastKey secs = some k → k ∈ secs.map Prod.fst := by
  intro secs
  induction secs with
  | nil => intro k h; exact absurd h (by simp [lastKey])
  | cons hd tl ih =>
    intro k h
    cases tl with
    | nil =>
      simp only [lastKey] at h
      simp [← Option.some_inj.mp h]
    | cons r rs =>
      rw [lastKey_cons_ne_nil hd (r :: rs) (by simp)] at h
      exact List.mem_cons_of_mem _ (ih k h)

theorem appendToSection_cons_eq (hd : String × List String)
    (tl : List (String × List String)) (k v : String) (h : hd.1 = k) :
    appendToSection (hd :: tl) k v = (hd.1, hd.2 ++ [v]) :: tl := by
  obtain ⟨a, b⟩ := hd
  simp only [appendToSection, if_pos h]

theorem appendToSection_cons_ne (hd : String × List String)
    (tl : List (String × List String)) (k v : String) (h : ¬(hd.1 = k)) :
    appendToSection (hd :: tl) k v = hd :: appendToSection tl k v := by
  obtain ⟨a, b⟩ := hd
  simp only [appendToSection, if_neg h]

theorem keys_appendToSection_not_mem (k v : String) :
    ∀ (secs : List (String × List String)), k ∉ secs.map Prod.fst →
    (appendToSection secs k v).map Prod.fst = secs.map Prod.fst ++ [k] := by
  intro secs
  induction secs with
  | nil => intro _; rfl
  | cons hd tl ih =>
    intro h
    rw [List.map_cons, List.mem_cons, not_or] at h
    rw [appendToSection_cons_ne hd tl k v (fun e => h.1 e.symm), List.map_cons, ih h.2,
      List.map_cons, List.cons_append]

theorem keys_appendToSection_mem (k v : String) :
    ∀ (secs : List (String × List String)), k ∈ secs.map Prod.fst →
    (appendToSection secs k v).map Prod.fst = secs.map Prod.fst := by
  intro secs
  induction secs with
  | nil => intro h; exact absurd h (by simp)
  | cons hd tl ih =>
    intro h
    by_cases he : hd.1 = k
    · rw [appendToSection_cons_eq hd tl k v he, List.map_cons, List.map_cons]
    · rw [List.map_cons, List.mem_cons] at h
      rcases h with h | h
      · exact absurd h.symm he
      · rw [appendToSection_cons_ne hd tl k v he, List.map_cons, ih h, List.map_cons]

theorem flatten_cons (a : String × List String) (t : List (String × List String)) :
    flattenSections (a :: t) = a.2 ++ flattenSections t := by
  simp [flattenSections]

theorem flatten_appendToSection_not_mem (k v : String) :
    ∀ (secs : List (String × List String)), k ∉ secs.map Prod.fst →
    flattenSections (appendToSection secs k v) = flattenSections secs ++ [v] := by
  intro secs
  induction secs with
  | nil => intro _; simp [appendToSection, flattenSections]
  | cons hd tl ih =>
    intro h
    rw [List.map_cons, List.mem_cons, not_or] at h
    rw [appendToSection_cons_ne hd tl k v (fun e => h.1 e.symm),
      flatten_cons, flatten_cons, ih h.2, List.append_assoc]

theorem flatten_appendToSection_last (k v : String) :
    ∀ (secs : List (String × List String)), (secs.map Prod.fst).Nodup →
    lastKey secs = some k →
    flattenSections (appendToSection secs k v) = flattenSections secs ++ [v] := by
  intro secs
  induction secs with
  | nil => intro _ h; exact absurd h (by simp [lastKey])
  | cons hd tl ih =>
    intro hnd hl
    cases tl with
    | nil =>
      simp only [lastKey, Option.some_inj] at hl
      rw [appendToSection_cons_eq hd [] k v hl, flatten_cons, flatten_cons]
      simp [flattenSections]
    | cons r rs =>
      rw [lastKey_cons_ne_nil hd (r :: rs) (by simp)] at hl
      rw [List.map_cons, List.nodup_cons] at hnd
      have hne : ¬(hd.1 = k) := fun e => hnd.1 (e ▸ mem_of_lastKey (r :: rs) k hl)
      rw [appendToSection_cons_ne hd (r :: rs) k v hne,
        flatten_cons, flatten_cons, ih hnd.2 hl, List.append_assoc]

theorem lastKey_appendToSection_not_mem (k v : String) :
    ∀ (secs : List (String × List String)), k ∉ secs.map Prod.fst →
    lastKey (appendToSection secs k v) = some k := by
  intro secs
  induction secs with
  | nil => intro _; rfl
  | cons hd tl ih =>
    intro h
    rw [List.map_cons, List.mem_cons, not_or] at h
    rw [appendToSection_cons_ne hd tl k v (fun e => h.1 e.symm),
      lastKey_cons_ne_nil _ _ (appendToSection_ne_nil tl k v)]
    exact ih h.2

theorem lastKey_appendToSection_last (k v : String) :
    ∀ (secs : List (String × List String)), (secs.map Prod.fst).Nodup →
    lastKey secs = some k →
    lastKey (appendToSection secs k v) = some k := by
  intro secs
  induction secs with
  | nil => intro _ h; exact absurd h (by simp [lastKey])
  | cons hd tl ih =>
    intro hnd hl
    cases tl with
    | nil =>
      simp only [lastKey, Option.some_inj] at hl
      rw [appendToSection_cons_eq hd [] k v hl]
      simp [lastKey, hl]
    | cons r rs =>
      rw [lastKey_cons_ne_nil hd (r :: rs) (by simp)] at hl
      rw [List.map_cons, List.nodup_cons] at hnd
      have hne : ¬(hd.1 = k) := fun e => hnd.1 (e ▸ mem_of_lastKey (r :: rs) k hl)
      rw [appendToSection_cons_ne hd (r :: rs) k v hne,
        lastKey_cons_ne_nil _ _ (appendToSection_ne_nil (r :: rs) k v)]
      exact ih hnd.2 hl

/-- Flattening the sections accumulated by `parseLines` appends exactly the
content lines, as long as every upcoming header is fresh (not an existing
section key and not the current section) and the current section, if already
accumulated, sits last. -/
theorem parseLines_flatten : ∀ (ls : List String) (secs : List (String × List String)) (cur : String),
    (∀ h ∈ headerNames ls, h ∉ secs.map Prod.fst ∧ h ≠ cur) →
    (headerNames ls).Nodup →
    (secs.map Prod.fst).Nodup →
    (cur ∈ secs.map Prod.fst → lastKey secs = some cur) →
    flattenSections (parseLines secs cur ls) = flattenSections secs ++ contentLines ls := by
  intro ls
  induction ls with
  | nil =>
    intro secs cur _ _ _ _
    simp [parseLines, contentLines]
  | cons l ls ih =>
    intro secs cur hfresh hndh hndk hlast
    by_cases hblank : (pyStrip l.data).isEmpty = true
    · have ht : pyStrip l.data = [] := List.isEmpty_iff.mp hblank
      have e3 : headerNames (l :: ls) = headerNames ls := by
        simp [headerNames, List.filterMap_cons, ht]
      rw [show parseLines secs cur (l :: ls) = parseLines secs cur ls by
            simp [parseLines, hblank, ht],
          show contentLines (l :: ls) = contentLines ls by
            simp [contentLines, List.filterMap_cons, ht]]
      exact ih secs cur (e3 ▸ hfresh) (e3 ▸ hndh) hndk hlast
    · have htne : pyStrip l.data ≠ [] := fun e => hblank (List.isEmpty_iff.mpr e)
      by_cases hhead : (pyStrip l.data).head? = some '#'
      · have e3 : headerNames (l :: ls)
            = (⟨pyStrip (lstripHash (pyStrip l.data))⟩ : String) :: headerNames ls := by
          simp [headerNames, List.filterMap_cons, hhead]
        rw [show parseLines secs cur (l :: ls)
              = parseLines secs ⟨pyStrip (lstripHash (pyStrip l.data))⟩ ls by
            simp [parseLines, hblank, htne, hhead],
          show contentLines (l :: ls) = contentLines ls by
            simp [contentLines, List.filterMap_cons, htne, hhead]]
        rw [e3] at hfresh hndh
        rw [List.nodup_cons] at hndh
        refine ih secs ⟨pyStrip (lstripHash (pyStrip l.data))⟩
          (fun h hh => ⟨(hfresh h (List.mem_cons_of_mem _ hh)).1,
            fun e => hndh.1 (e ▸ hh)⟩) hndh.2 hndk ?_
        intro hmem
        exact absurd hmem (hfresh _ (List.mem_cons_self _ _)).1
      · have e3 : headerNames (l :: ls) = headerNames ls := by
          simp [headerNames, List.filterMap_cons, hhead]
        rw [show parseLines secs cur (l :: ls)
              = parseLines (appendToSection secs cur ⟨pyStrip l.data⟩) cur ls by
            simp [parseLines, hblank, htne, hhead],
          show contentLines (l :: ls) = (⟨pyStrip l.data⟩ : String) :: contentLines ls by
            simp [contentLines, List.filterMap_cons, htne, hhead]]
        rw [e3] at hfresh hndh
        by_cases hmem : cur ∈ secs.map Prod.fst
        · have hl := hlast hmem
          have hkeys := keys_appendToSection_mem cur ⟨pyStrip l.data⟩ secs hmem
          rw [ih (appendToSection secs cur ⟨pyStrip l.data⟩) cur
              (fun h hh => ⟨by rw [hkeys]; exact (hfresh h hh).1, (hfresh h hh).2⟩)
              hndh (by rw [hkeys]; exact hndk)
              (fun _ => lastKey_appendToSection_last cur _ secs hndk hl),
            flatten_appendToSection_last cur _ secs hndk hl]
          simp
        · have hkeys := keys_appendToSection_not_mem cur ⟨pyStrip l.data⟩ secs hmem
          rw [ih (appendToSection secs cur ⟨pyStrip l.data⟩) cur
              (fun h hh => ⟨by
                rw [hkeys]
                simp only [List.mem_append, List.mem_singleton, not_or]
                exact ⟨(hfresh h hh).1, (hfresh h hh).2⟩, (hfresh h hh).2⟩)
              hndh
              (by
                rw [hkeys, List.nodup_append]
                exact ⟨hndk, List.nodup_singleton cur,
                  fun x hx e => hmem ((List.mem_singleton.mp e) ▸ hx)⟩)
              (fun _ => lastKey_appendToSection_not_mem cur _ secs hmem),
            flatten_appendToSection_not_mem cur _ secs hmem]
          simp

-- ### Lemmas about `pattern_to_glob`

theorem globAux_replicate (n : Nat) : ∀ (m : Nat) (v : List Char),
    globAux m (List.replicate n 'x' ++ v) = globAux (m + n) v := by
  induction n with
  | zero => intro m v; simp
  | succ k ih =>
    intro m v
    have h1 : globAux m (List.replicate (k + 1) 'x' ++ v) = globAux (m + 1) (List.replicate k 'x' ++ v) := by
      simp [List.replicate, globAux]
    have h2 : m + 1 + k = m + (k + 1) := by omega
    rw [h1, ih (m + 1) v, h2]

theorem globAux_head_ne (n : Nat) (v : List Char) (hv : v.head? ≠ some 'x') :
    globAux n v = emitRun n (globAux 0 v) := by
  cases v with
  | nil => simp [globAux, emitRun]
  | cons c cs =>
    have hc : ¬(c = 'x') := by simpa using hv
    simp [globAux, hc, emitRun]

theorem globAux_no_x (u : List Char) (hu : ∀ c ∈ u, c ≠ 'x') (v : List Char) :
    globAux 0 (u ++ v) = u ++ globAux 0 v := by
  induction u with
  | nil => rfl
  | cons c cs ih =>
    have hc : ¬(c = 'x') := hu c (by simp)
    have ih' := ih (fun d hd => hu d (by simp [hd]))
    simp [globAux, hc, emitRun, ih']

-- ### Lemmas about the progress store

theorem lookupKey_eq_none_of_not_mem (p : Progress) (k : String)
    (h : k ∉ p.map Prod.fst) : lookupKey p k = none := by
  induction p with
  | nil => rfl
  | cons kv rest ih =>
    rw [List.map_cons, List.mem_cons, not_or] at h
    simp only [lookupKey]
    rw [List.find?_cons_of_neg _ (by simp only [decide_eq_true_eq]; exact fun e => h.1 e.symm)]
    exact ih h.2

theorem lookupKey_popKey_ne (p : Progress) (k k' : String) (h : k' ≠ k) :
    lookupKey (popKey p k) k' = lookupKey p k' := by
  induction p with
  | nil => rfl
  | cons kv rest ih =>
    by_cases hk : kv.1 = k
    · have hkk' : ¬(kv.1 = k') := fun he => h (he ▸ hk)
      simp only [popKey, if_pos hk, lookupKey]
      rw [List.find?_cons_of_neg _ (by simp only [decide_eq_true_eq]; exact hkk')]
    · simp only [popKey, if_neg hk]
      by_cases hk' : kv.1 = k'
      · simp only [lookupKey]
        rw [List.find?_cons_of_pos _ (by simp only [decide_eq_true_eq]; exact hk'),
          List.find?_cons_of_pos _ (by simp only [decide_eq_true_eq]; exact hk')]
      · simp only [lookupKey]
        rw [List.find?_cons_of_neg _ (by simp only [decide_eq_true_eq]; exact hk'),
          List.find?_cons_of_neg _ (by simp only [decide_eq_true_eq]; exact hk')]
        exact ih

theorem lookupKey_popKey_self (p : Progress) (k : String)
    (hnd : (p.map Prod.fst).Nodup) : lookupKey (popKey p k) k = none := by
  induction p with
  | nil => rfl
  | cons kv rest ih =>
    rw [List.map_cons, List.nodup_cons] at hnd
    by_cases hk : kv.1 = k
    · simp only [popKey, if_pos hk]
      exact lookupKey_eq_none_of_not_mem rest k (hk ▸ hnd.1)
    · simp only [popKey, if_neg hk, lookupKey]
      rw [List.find?_cons_of_neg _ (by simp only [decide_eq_true_eq]; exact hk)]
      exact ih hnd.2

theorem keys_popKey_sublist (p : Progress) (k : String) :
    ((popKey p k).map Prod.fst).Sublist (p.map Prod.fst) := by
  induction p with
  | nil => simp [popKey]
  | cons kv rest ih =>
    by_cases hk : kv.1 = k
    · simp only [popKey, if_pos hk, List.map_cons]
      exact (List.sublist_cons_self _ _)
    · simp only [popKey, if_neg hk, List.map_cons]
      exact ih.cons₂ kv.1

theorem nodup_keys_popKey (p : Progress) (k : String)
    (hnd : (p.map Prod.fst).Nodup) : (((popKey p k).map Prod.fst)).Nodup :=
  (keys_popKey_sublist p k).nodup hnd

theorem lookupKey_foldl_popKey (names : List String) : ∀ (p : Progress),
    (p.map Prod.fst).Nodup → ∀ k,
    lookupKey (names.foldl popKey p) k = if k ∈ names then none else lookupKey p k := by
  induction names with
  | nil => intro p _ k; simp
  | cons n ns ih =>
    intro p hnd k
    rw [List.foldl_cons, ih (popKey p n) (nodup_keys_popKey p n hnd) k]
    by_cases hkns : k ∈ ns
    · simp [hkns]
    · by_cases hkn : k = n
      · simp [hkns, hkn, lookupKey_popKey_self p n hnd]
      · simp [hkns, hkn, lookupKey_popKey_ne p n k hkn]

-- ### Lemmas about `setKey`

theorem lookupKey_setKey_self (p : Progress) (k v : String) :
    lookupKey (setKey p k v) k = some v := by
  induction p with
  | nil => simp [setKey, lookupKey, List.find?]
  | cons kv rest ih =>
    by_cases hk : kv.1 = k
    · simp only [setKey, if_pos hk, lookupKey]
      rw [List.find?_cons_of_pos _ (by simp)]
      rfl
    · simp only [setKey, if_neg hk, lookupKey]
      rw [List.find?_cons_of_neg _ (by simp only [decide_eq_true_eq]; exact hk)]
      exact ih

theorem lookupKey_setKey_ne (p : Progress) (k v k' : String) (h : k' ≠ k) :
    lookupKey (setKey p k v) k' = lookupKey p k' := by
  induction p with
  | nil =>
    simp only [setKey, lookupKey]
    rw [List.find?_cons_of_neg _ (by simp only [decide_eq_true_eq]; exact fun e => h e.symm)]
  | cons kv rest ih =>
    by_cases hk : kv.1 = k
    · have hk' : ¬(k = k') := fun e => h e.symm
      simp only [setKey, if_pos hk, lookupKey]
      rw [List.find?_cons_of_neg _ (by simp only [decide_eq_true_eq]; exact hk'),
        List.find?_cons_of_neg _ (by simp only [decide_eq_true_eq]; exact fun e => h (e.symm.trans hk))]
    · simp only [setKey, if_neg hk, lookupKey]
      by_cases hkk' : kv.1 = k'
      · rw [List.find?_cons_of_pos _ (by simp only [decide_eq_true_eq]; exact hkk'),
          List.find?_cons_of_pos _ (by simp only [decide_eq_true_eq]; exact hkk')]
      · rw [List.find?_cons_of_neg _ (by simp only [decide_eq_true_eq]; exact hkk'),
          List.find?_cons_of_neg _ (by simp only [decide_eq_true_eq]; exact hkk')]
        exact ih

theorem lookupKey_setKey_done (p : Progress) (k r : String)
    (h : lookupKey p r = some "done") :
    lookupKey (setKey p k "done") r = some "done" := by
  by_cases hrk : r = k
  · rw [hrk]; exact lookupKey_setKey_self p k "done"
  · rw [lookupKey_setKey_ne p k "done" r hrk]; exact h

theorem failed_ne_done (e : String) : ("failed: " ++ e) ≠ "done" := by
  intro h
  have hl := congrArg String.length h
  rw [String.length_append] at hl
  have : ("failed: ").length = 8 := by decide
  rw [this] at hl
  have : ("done").length = 4 := by decide
  rw [this] at hl
  omega

theorem lookupKey_setKey_failed (p : Progress) (pat e k : String)
    (h : lookupKey (setKey p pat ("failed: " ++ e)) k = some "done") :
    lookupKey p k = some "done" := by
  by_cases hk : k = pat
  · rw [hk, lookupKey_setKey_self] at h
    exact absurd (Option.some_inj.mp h) (failed_ne_done e)
  · rw [lookupKey_setKey_ne p pat _ k hk] at h
    exact h

-- ### Lemmas about `validate`

/-- Every `(section, pattern)` pair of a parsed manifest, in the traversal
order of `validate`'s two nested loops. -/
def sectionPairs (secs : List (String × List String)) : List (String × String) :=
  (secs.map (fun kv => kv.2.map (fun p => (kv.1, p)))).flatten

/-- The found entry `validate` produces for one `(section, pattern)` pair. -/
def foundEntry (dir : List String) (sp : String × String) : Option (String × String × String) :=
  (find_matching_file dir sp.2).map (fun m => (sp.1, sp.2, baseName m))

theorem validate_inner_fold (dir : List String) (sec : String) :
    ∀ (pats : List String) (acc : List (String × String × String) × List (String × String)),
    (pats.foldl (fun acc2 pat =>
      match find_matching_file dir pat with
      | some m => (acc2.1 ++ [(sec, pat, baseName m)], acc2.2)
      | none => (acc2.1, acc2.2 ++ [(sec, pat)])) acc)
    = (acc.1 ++ (pats.map (fun p => (sec, p))).filterMap (foundEntry dir),
       acc.2 ++ (pats.map (fun p => (sec, p))).filter
         (fun sp => (find_matching_file dir sp.2).isNone)) := by
  intro pats
  induction pats with
  | nil => intro acc; simp
  | cons p ps ih =>
    intro acc
    cases h : find_matching_file dir p with
    | some m =>
      rw [List.foldl_cons]
      simp only [h]
      rw [ih]
      simp [List.filterMap_cons, List.filter_cons, foundEntry, h]
    | none =>
      rw [List.foldl_cons]
      simp only [h]
      rw [ih]
      simp [List.filterMap_cons, List.filter_cons, foundEntry, h]

theorem validate_outer_fold (dir : List String) :
    ∀ (secs : List (String × List String))
      (acc : List (String × String × String) × List (String × String)),
    (secs.foldl (fun acc kv =>
      kv.2.foldl (fun acc2 pat =>
        match find_matching_file dir pat with
        | some m => (acc2.1 ++ [(kv.1, pat, baseName m)], acc2.2)
        | none => (acc2.1, acc2.2 ++ [(kv.1, pat)])) acc) acc)
    = (acc.1 ++ (sectionPairs secs).filterMap (foundEntry dir),
       acc.2 ++ (sectionPairs secs).filter
         (fun sp => (find_matching_file dir sp.2).isNone)) := by
  intro secs
  induction secs with
  | nil => intro acc; simp [sectionPairs]
  | cons kv rest ih =>
    intro acc
    rw [List.foldl_cons, validate_inner_fold dir kv.1 kv.2 acc, ih]
    simp [sectionPairs, List.append_assoc]

-- ### Lemmas about the per-reference pipeline loop

/-- `Ev` values that are tag or push invocations. -/
def isTagPush : Ev → Bool
  | .tag _ _ => true
  | .push _ => true
  | _ => false

/-- `Ev` values that are external invocations (anything except a progress
save). -/
def isExternalOp : Ev → Bool
  | .save _ => false
  | _ => true

theorem processRefs_cons_done (w : DockerWorld) (d cleanup : Bool) (ep org x : String)
    (rest : List String) (p : Progress) (hd : lookupKey p x = some "done") :
    processRefs w d cleanup ep org (x :: rest) p = processRefs w d cleanup ep org rest p := by
  simp [processRefs, hd]

theorem processRefs_all_done (w : DockerWorld) (d cleanup : Bool) (ep org : String) :
    ∀ (refs : List String) (p : Progress), (∀ r ∈ refs, lookupKey p r = some "done") →
    processRefs w d cleanup ep org refs p = (p, [], none) := by
  intro refs
  induction refs with
  | nil => intro p _; rfl
  | cons r rest ih =>
    intro p h
    rw [processRefs_cons_done w d cleanup ep org r rest p (h r (List.mem_cons_self r rest))]
    exact ih p (fun x hx => h x (List.mem_cons_of_mem r hx))

theorem mem_docker_tag_snd (w : DockerWorld) (d : Bool) (s t : String) (ev : Ev)
    (h : ev ∈ (docker_tag w d s t).2) : ev = Ev.tag s t := by
  cases d
  · simp [docker_tag] at h; exact h
  · simp [docker_tag] at h

theorem mem_docker_push_snd (w : DockerWorld) (d : Bool) (t : String) (ev : Ev)
    (h : ev ∈ (docker_push w d t).2) : ev = Ev.push t := by
  cases d
  · simp [docker_push] at h; exact h
  · simp [docker_push] at h

theorem mem_docker_rmi (d : Bool) (r : String) (ev : Ev)
    (h : ev ∈ docker_rmi d r) : ev = Ev.rmi r := by
  cases d
  · simp [docker_rmi] at h; exact h
  · simp [docker_rmi] at h

theorem processRefs_success (w : DockerWorld) (cleanup : Bool) (ep org : String)
    (htag : ∀ s t, w.tag s t = .ok ()) (hpush : ∀ t, w.push t = .ok ()) :
    ∀ (refs : List String) (p : Progress),
    (processRefs w false cleanup ep org refs p).2.2 = none ∧
    (∀ r ∈ refs, lookupKey (processRefs w false cleanup ep org refs p).1 r = some "done") ∧
    (∀ k, lookupKey (processRefs w false cleanup ep org refs p).1 k = lookupKey p k ∨
          lookupKey (processRefs w false cleanup ep org refs p).1 k = some "done") := by
  intro refs
  induction refs with
  | nil => intro p; exact ⟨rfl, by simp, fun k => Or.inl rfl⟩
  | cons r rest ih =>
    intro p
    by_cases hd : lookupKey p r = some "done"
    · rw [processRefs_cons_done w false cleanup ep org r rest p hd]
      refine ⟨(ih p).1, fun x hx => ?_, (ih p).2.2⟩
      rcases List.mem_cons.mp hx with hx | hx
      · rcases (ih p).2.2 x with hh | hh
        · rw [hh, hx]; exact hd
        · exact hh
      · exact (ih p).2.1 x hx
    · rcases hrec : processRefs w false cleanup ep org rest (setKey p r "done") with ⟨p2, evs, err⟩
      have ihp := ih (setKey p r "done")
      rw [hrec] at ihp
      have e1 : (processRefs w false cleanup ep org (r :: rest) p).1 = p2 := by
        simp [processRefs, hd, docker_tag, docker_push, htag, hpush, hrec]
      have e2 : (processRefs w false cleanup ep org (r :: rest) p).2.2 = err := by
        simp [processRefs, hd, docker_tag, docker_push, htag, hpush, hrec]
      refine ⟨by rw [e2]; exact ihp.1, fun x hx => ?_, fun k => ?_⟩
      · rw [e1]
        rcases List.mem_cons.mp hx with hx | hx
        · rcases ihp.2.2 x with hh | hh
          · rw [hh, hx, lookupKey_setKey_self]
          · exact hh
        · exact ihp.2.1 x hx
      · rw [e1]
        rcases ihp.2.2 k with hh | hh
        · by_cases hkr : k = r
          · right; rw [hh, hkr, lookupKey_setKey_self]
          · left; rw [hh, lookupKey_setKey_ne p r "done" k hkr]
        · right; exact hh

theorem processRefs_no_tag_done (w : DockerWorld) (d cleanup : Bool) (ep org r : String) :
    ∀ (refs : List String) (p : Progress), lookupKey p r = some "done" →
    ∀ tgt, Ev.tag r tgt ∉ (processRefs w d cleanup ep org refs p).2.1 := by
  intro refs
  induction refs with
  | nil => intro p _ tgt h; exact absurd h (by simp [processRefs])
  | cons x rest ih =>
    intro p hdone tgt
    by_cases hd : lookupKey p x = some "done"
    · rw [processRefs_cons_done w d cleanup ep org x rest p hd]
      exact ih p hdone tgt
    · have hxr : ¬(x = r) := fun e => hd (e ▸ hdone)
      rcases hdt : docker_tag w d x (build_target_ref ep org x) with ⟨tagRes, tagEv⟩
      have htagEv : ∀ ev ∈ tagEv, ev = Ev.tag x (build_target_ref ep org x) := by
        intro ev hev
        exact mem_docker_tag_snd w d x _ ev (by rw [hdt]; exact hev)
      cases tagRes with
      | error e =>
        have e1 : (processRefs w d cleanup ep org (x :: rest) p).2.1 = tagEv := by
          simp [processRefs, hd, hdt]
        rw [e1]
        intro hmem
        have := htagEv _ hmem
        simp only [Ev.tag.injEq] at this
        exact hxr this.1.symm
      | ok u =>
        rcases hdp : docker_push w d (build_target_ref ep org x) with ⟨pushRes, pushEv⟩
        have hpushEv : ∀ ev ∈ pushEv, ev = Ev.push (build_target_ref ep org x) := by
          intro ev hev
          exact mem_docker_push_snd w d _ ev (by rw [hdp]; exact hev)
        cases pushRes with
        | error e =>
          have e1 : (processRefs w d cleanup ep org (x :: rest) p).2.1 = tagEv ++ pushEv := by
            simp [processRefs, hd, hdt, hdp]
          rw [e1]
          intro hmem
          rcases List.mem_append.mp hmem with hmem | hmem
          · have := htagEv _ hmem
            simp only [Ev.tag.injEq] at this
            exact hxr this.1.symm
          · exact absurd (hpushEv _ hmem) (by simp)
        | ok u2 =>
          rcases hrec : processRefs w d cleanup ep org rest (setKey p x "done") with ⟨p2, evs, err⟩
          have e1 : (processRefs w d cleanup ep org (x :: rest) p).2.1
              = tagEv ++ pushEv
                ++ (if cleanup then docker_rmi d x ++ docker_rmi d (build_target_ref ep org x) else [])
                ++ [Ev.save (setKey p x "done")] ++ evs := by
            simp [processRefs, hd, hdt, hdp, hrec]
          rw [e1]
          intro hmem
          rcases List.mem_append.mp hmem with hmem | hmem
          · rcases List.mem_append.mp hmem with hmem | hmem
            · rcases List.mem_append.mp hmem with hmem | hmem
              · rcases List.mem_append.mp hmem with hmem | hmem
                · have := htagEv _ hmem
                  simp only [Ev.tag.injEq] at this
                  exact hxr this.1.symm
                · exact absurd (hpushEv _ hmem) (by simp)
              · rcases hcl : cleanup with _ | _
                · rw [hcl] at hmem; simp at hmem
                · rw [hcl] at hmem
                  simp only [if_pos rfl] at hmem
                  rcases List.mem_append.mp hmem with hmem | hmem
                  · exact absurd (mem_docker_rmi d x _ hmem) (by simp)
                  · exact absurd (mem_docker_rmi d _ _ hmem) (by simp)
            · simp at hmem
          · have hdone1 : lookupKey (setKey p x "done") r = some "done" :=
              lookupKey_setKey_done p x r hdone
            have := ih (setKey p x "done") hdone1 tgt
            rw [hrec] at this
            exact this hmem

theorem processRefs_skip_filter (w : DockerWorld) (d cleanup : Bool) (ep org r : String) :
    ∀ (refs : List String) (p : Progress), lookupKey p r = some "done" →
    processRefs w d cleanup ep org refs p
      = processRefs w d cleanup ep org (refs.filter (fun x => x ≠ r)) p := by
  intro refs
  induction refs with
  | nil => intro p _; rfl
  | cons x rest ih =>
    intro p hdone
    by_cases hxr : x = r
    · have hd : lookupKey p x = some "done" := by rw [hxr]; exact hdone
      have e2 : (x :: rest).filter (fun y => y ≠ r) = rest.filter (fun y => y ≠ r) := by
        simp [List.filter_cons, hxr]
      rw [processRefs_cons_done w d cleanup ep org x rest p hd, e2]
      exact ih p hdone
    · have e2 : (x :: rest).filter (fun y => y ≠ r) = x :: rest.filter (fun y => y ≠ r) := by
        simp [List.filter_cons, hxr]
      rw [e2]
      by_cases hd : lookupKey p x = some "done"
      · rw [processRefs_cons_done w d cleanup ep org x rest p hd,
          processRefs_cons_done w d cleanup ep org x _ p hd]
        exact ih p hdone
      · simp only [processRefs, if_neg hd]
        rw [ih (setKey p x "done") (lookupKey_setKey_done p x r hdone)]

-- ### Lemmas about `process_image` and the pattern loop

theorem process_image_missing (w : DockerWorld) (cfg : Cfg) (dir : List String)
    (pattern : String) (p : Progress) (d : Bool)
    (h : find_matching_file dir pattern = none) :
    process_image w cfg dir pattern p d
      = .ok (setKey p pattern "missing", [Ev.save (setKey p pattern "missing")]) := by
  simp [process_image, h]

theorem process_image_found (w : DockerWorld) (af : Option String) (ep org : String)
    (cleanup : Bool) (dir : List String) (pattern tb : String) (p : Progress) (d : Bool)
    (h : find_matching_file dir pattern = some tb) :
    process_image w ⟨af, some ep, some org, cleanup⟩ dir pattern p d
      = .ok (process_image_core w d cleanup ep org pattern tb p) := by
  simp [process_image, h]

theorem process_image_keyerror (w : DockerWorld) (cfg : Cfg) (dir : List String)
    (pattern tb : String) (p : Progress) (d : Bool)
    (h : find_matching_file dir pattern = some tb)
    (hswr : cfg.swr_endpoint = none ∨ cfg.swr_org = none) :
    process_image w cfg dir pattern p d = .error () := by
  rcases cfg with ⟨af, se, so, cl⟩
  simp only [process_image, h]
  rcases hswr with hswr | hswr
  · simp only at hswr
    subst hswr
    rfl
  · simp only at hswr
    subst hswr
    cases se <;> rfl

theorem process_image_core_load_error (w : DockerWorld) (cleanup : Bool)
    (ep org pattern tb : String) (p : Progress) (e : String)
    (h : w.load tb = .error e) :
    process_image_core w false cleanup ep org pattern tb p
      = (setKey p pattern ("failed: " ++ e),
         [Ev.load tb, Ev.save (setKey p pattern ("failed: " ++ e))]) := by
  simp [process_image_core, docker_load, h]

theorem process_image_core_refs (w : DockerWorld) (cleanup : Bool)
    (ep org pattern tb : String) (p : Progress) (refs : List String)
    (h : docker_load w false tb = .ok refs) :
    process_image_core w false cleanup ep org pattern tb p
      = (match processRefs w false cleanup ep org refs p with
         | (p1, evs, none) => (p1, Ev.load tb :: evs)
         | (p1, evs, some e) =>
           (setKey p1 pattern ("failed: " ++ e),
            Ev.load tb :: (evs ++ [Ev.save (setKey p1 pattern ("failed: " ++ e))]))) := by
  rcases hrec : processRefs w false cleanup ep org refs p with ⟨p1, evs, err⟩
  cases err <;> simp [process_image_core, h, hrec]

theorem runPatterns_cons (w : DockerWorld) (cfg : Cfg) (dir : List String) (d : Bool)
    (pat : String) (rest : List String) (p : Progress) (out : Progress × List Ev)
    (h : process_image w cfg dir pat p d = .ok out) :
    runPatterns w cfg dir d (pat :: rest) p
      = ((runPatterns w cfg dir d rest out.1).1,
         out.2 ++ (runPatterns w cfg dir d rest out.1).2.1,
         (runPatterns w cfg dir d rest out.1).2.2) := by
  rcases out with ⟨p1, evs⟩
  rcases hrec : runPatterns w cfg dir d rest p1 with ⟨p2, evs2, c⟩
  simp [runPatterns, h, hrec]

theorem runPatterns_cons_err (w : DockerWorld) (cfg : Cfg) (dir : List String) (d : Bool)
    (pat : String) (rest : List String) (p : Progress)
    (h : process_image w cfg dir pat p d = .error ()) :
    runPatterns w cfg dir d (pat :: rest) p = (p, [], true) := by
  simp [runPatterns, h]

/-- A run in which every pattern matches a file and every external invocation
succeeds never crashes, only adds `done` entries, and marks `done` every
reference loaded from every pattern's tarball. -/
theorem runPatterns_success (w : DockerWorld) (af : Option String) (ep org : String)
    (cleanup : Bool) (dir : List String) (loadRefs : String → List String)
    (hload : ∀ t, docker_load w false t = .ok (loadRefs t))
    (htag : ∀ s t, w.tag s t = .ok ()) (hpush : ∀ t, w.push t = .ok ()) :
    ∀ (pats : List String) (p : Progress),
    (∀ pat ∈ pats, (find_matching_file dir pat).isSome = true) →
    ((runPatterns w ⟨af, some ep, some org, cleanup⟩ dir false pats p).2.2 = false) ∧
    (∀ k, lookupKey (runPatterns w ⟨af, some ep, some org, cleanup⟩ dir false pats p).1 k
          = lookupKey p k ∨
        lookupKey (runPatterns w ⟨af, some ep, some org, cleanup⟩ dir false pats p).1 k
          = some "done") ∧
    (∀ pat ∈ pats, ∀ tb, find_matching_file dir pat = some tb →
      ∀ r ∈ loadRefs tb,
        lookupKey (runPatterns w ⟨af, some ep, some org, cleanup⟩ dir false pats p).1 r
          = some "done") := by
  intro pats
  induction pats with
  | nil =>
    intro p _
    exact ⟨rfl, fun k => Or.inl rfl, by simp⟩
  | cons pat rest ih =>
    intro p hm
    rcases Option.isSome_iff_exists.mp (hm pat (List.mem_cons_self pat rest)) with ⟨tb, hf⟩
    rcases hrec : processRefs w false cleanup ep org (loadRefs tb) p with ⟨p1, evs, err⟩
    have ihp := processRefs_success w cleanup ep org htag hpush (loadRefs tb) p
    rw [hrec] at ihp
    have herr : err = none := ihp.1
    subst herr
    have hcore : process_image_core w false cleanup ep org pat tb p = (p1, Ev.load tb :: evs) := by
      rw [process_image_core_refs w cleanup ep org pat tb p (loadRefs tb) (hload tb), hrec]
    have hok : process_image w ⟨af, some ep, some org, cleanup⟩ dir pat p false
        = .ok (p1, Ev.load tb :: evs) := by
      rw [process_image_found w af ep org cleanup dir pat tb p false hf, hcore]
    rw [runPatterns_cons w ⟨af, some ep, some org, cleanup⟩ dir false pat rest p _ hok]
    have ihr := ih p1 (fun x hx => hm x (List.mem_cons_of_mem pat hx))
    refine ⟨ihr.1, fun k => ?_, fun x hx tb' hf' r hr => ?_⟩
    · rcases ihr.2.1 k with hh | hh
      · rcases ihp.2.2 k with hh2 | hh2
        · exact Or.inl (hh.trans hh2)
        · exact Or.inr (hh.trans hh2)
      · exact Or.inr hh
    · rcases List.mem_cons.mp hx with hx | hx
      · have htb : tb' = tb := by
          rw [hx] at hf'
          exact Option.some_inj.mp (hf'.symm.trans hf)
        subst htb
        have hr1 : lookupKey p1 r = some "done" := ihp.2.1 r hr
        rcases ihr.2.1 r with hh | hh
        · exact hh.trans hr1
        · exact hh
      · exact ihr.2.2 x hx tb' hf' r hr

/-- A run over patterns whose loaded references are all already `done` leaves
the progress record unchanged and performs no tag or push invocation. -/
theorem runPatterns_all_done (w : DockerWorld) (af : Option String) (ep org : String)
    (cleanup : Bool) (dir : List String) (loadRefs : String → List String)
    (hload : ∀ t, docker_load w false t = .ok (loadRefs t)) :
    ∀ (pats : List String) (q : Progress),
    (∀ pat ∈ pats, (find_matching_file dir pat).isSome = true) →
    (∀ pat ∈ pats, ∀ tb, find_matching_file dir pat = some tb →
      ∀ r ∈ loadRefs tb, lookupKey q r = some "done") →
    (runPatterns w ⟨af, some ep, some org, cleanup⟩ dir false pats q).1 = q ∧
    (runPatterns w ⟨af, some ep, some org, cleanup⟩ dir false pats q).2.1.filter isTagPush = [] ∧
    (runPatterns w ⟨af, some ep, some org, cleanup⟩ dir false pats q).2.2 = false := by
  intro pats
  induction pats with
  | nil => intro q _ _; exact ⟨rfl, rfl, rfl⟩
  | cons pat rest ih =>
    intro q hm hdone
    rcases Option.isSome_iff_exists.mp (hm pat (List.mem_cons_self pat rest)) with ⟨tb, hf⟩
    have hall : processRefs w false cleanup ep org (loadRefs tb) q = (q, [], none) :=
      processRefs_all_done w false cleanup ep org (loadRefs tb) q
        (hdone pat (List.mem_cons_self pat rest) tb hf)
    have hcore : process_image_core w false cleanup ep org pat tb q = (q, [Ev.load tb]) := by
      rw [process_image_core_refs w cleanup ep org pat tb q (loadRefs tb) (hload tb), hall]
    have hok : process_image w ⟨af, some ep, some org, cleanup⟩ dir pat q false
        = .ok (q, [Ev.load tb]) := by
      rw [process_image_found w af ep org cleanup dir pat tb q false hf, hcore]
    rw [runPatterns_cons w ⟨af, some ep, some org, cleanup⟩ dir false pat rest q _ hok]
    have ihr := ih q (fun x hx => hm x (List.mem_cons_of_mem pat hx))
      (fun x hx => hdone x (List.mem_cons_of_mem pat hx))
    refine ⟨ihr.1, ?_, ihr.2.2⟩
    simp only [List.filter_append, ihr.2.1]
    simp [isTagPush]

/-- The event trace of a run outcome. -/
def traceOf : MainResult → List Ev
  | .earlyExit _ => []
  | .finished _ t => t
  | .crashed _ t => t

/-- With a missing `swr.endpoint` or `swr.org` key, the pattern loop performs
no external invocation at all, and it crashes (uncaught `KeyError`) exactly
when some pattern matches a file. -/
theorem runPatterns_no_swr (w : DockerWorld) (cfg : Cfg) (dir : List String) (d : Bool)
    (hswr : cfg.swr_endpoint = none ∨ cfg.swr_org = none) :
    ∀ (pats : List String) (p : Progress),
    ((runPatterns w cfg dir d pats p).2.1.filter isExternalOp = []) ∧
    ((runPatterns w cfg dir d pats p).2.2 = true ↔
      ∃ pat ∈ pats, (find_matching_file dir pat).isSome = true) := by
  intro pats
  induction pats with
  | nil =>
    intro p
    refine ⟨rfl, ?_⟩
    simp [runPatterns]
  | cons pat rest ih =>
    intro p
    cases hf : find_matching_file dir pat with
    | none =>
      have hok := process_image_missing w cfg dir pat p d hf
      rw [runPatterns_cons w cfg dir d pat rest p _ hok]
      refine ⟨?_, ?_⟩
      · simp only [List.filter_append]
        rw [(ih (setKey p pat "missing")).1]
        simp [isExternalOp]
      · have hiff := (ih (setKey p pat "missing")).2
        constructor
        · intro hc
          rcases hiff.mp hc with ⟨x, hx, hs⟩
          exact ⟨x, List.mem_cons_of_mem pat hx, hs⟩
        · intro hex
          rcases hex with ⟨x, hx, hs⟩
          rcases List.mem_cons.mp hx with hx | hx
          · rw [hx, hf] at hs
            simp at hs
          · exact hiff.mpr ⟨x, hx, hs⟩
    | some tb =>
      have herr := process_image_keyerror w cfg dir pat tb p d hf hswr
      rw [runPatterns_cons_err w cfg dir d pat rest p herr]
      refine ⟨rfl, ?_⟩
      constructor
      · intro _
        exact ⟨pat, List.mem_cons_self pat rest, by rw [hf]; rfl⟩
      · intro _
        rfl

-- ### Claim theorems

/-- **C3** (confirmed).  `build_target_ref` agrees everywhere with the spec's
drop-one-or-two-segments rule, and produces the two reference targets the spec
lists for `registry.example.com/ns/app:1.0` and `app:latest` with destination
`swr.example.com`/`myorg`. -/
theorem build_target_ref_correct :
    (∀ swr_endpoint org loaded_ref,
      build_target_ref swr_endpoint org loaded_ref = target_ref_spec swr_endpoint org loaded_ref) ∧
    build_target_ref "swr.example.com" "myorg" "registry.example.com/ns/app:1.0"
      = "swr.example.com/myorg/app:1.0" ∧
    build_target_ref "swr.example.com" "myorg" "app:latest"
      = "swr.example.com/myorg/app:latest" := by
  refine ⟨fun ep org ref => ?_, by decide, by decide⟩
  unfold build_target_ref target_ref_spec
  rcases splitSlash ref with _ | ⟨a, _ | ⟨b, _ | ⟨c, rest⟩⟩⟩
  · rfl
  · rfl
  · simp [joinSlash]
  · simp [Nat.lt_of_sub_eq_succ]

/-- **C4, counterexample.**  When a section header recurs after another
section, its lines are appended to the earlier accumulation bucket, so
concatenating section lists in section order does not preserve original file
order. -/
theorem parse_manifest_interleaved_counterexample :
    flattenSections (parse_manifest ["#A", "a", "#B", "b", "#A", "c"]) = ["a", "c", "b"] ∧
    contentLines ["#A", "a", "#B", "b", "#A", "c"] = ["a", "b", "c"] ∧
    flattenSections (parse_manifest ["#A", "a", "#B", "b", "#A", "c"])
      ≠ contentLines ["#A", "a", "#B", "b", "#A", "c"] := by
  refine ⟨by decide, by decide, by decide⟩

/-- **C4** (corrected/amended).  Provided no section name recurs — the header
names, together with the default section name, are pairwise distinct — parsing
and then concatenating all section pattern lists in section order yields
exactly the trimmed non-blank, non-header input lines in original file
order. -/
theorem parse_manifest_roundtrip (lines : List String)
    (hnd : ("default" :: headerNames lines).Nodup) :
    flattenSections (parse_manifest lines) = contentLines lines := by
  rw [List.nodup_cons] at hnd
  have h := parseLines_flatten lines [] "default"
    (fun h hh => ⟨by simp, fun e => hnd.1 (e ▸ hh)⟩) hnd.2 (by simp) (by simp)
  simpa [flattenSections] using h

/-- Witness for **C4**: a concrete manifest with distinct section names
round-trips. -/
theorem parse_manifest_roundtrip_witness :
    flattenSections (parse_manifest ["pre", "# 镜像", "a.tar", "", "#docs", " d.pdf "])
      = contentLines ["pre", "# 镜像", "a.tar", "", "#docs", " d.pdf "] :=
  parse_manifest_roundtrip ["pre", "# 镜像", "a.tar", "", "#docs", " d.pdf "] (by decide)

/-- **C5, counterexample.**  The claim's own example fails on the code: the
placeholder character is lowercase `x` (regex `x{3,}`), so
`pattern_to_glob "imageXXXname"` is returned unchanged, not wildcarded. -/
theorem pattern_to_glob_capital_X_unchanged :
    pattern_to_glob "imageXXXname" = "imageXXXname" ∧
    pattern_to_glob "imageXXXname" ≠ "image*name" := by
  constructor <;> decide

/-- **C5** (corrected/amended).  With the placeholder character lowercase `x`:
every maximal run of three or more `x`s is replaced by a single `*`, runs of
one or two `x`s are kept verbatim, `pattern_to_glob "imagexxxname"` has its
placeholder run wildcarded and `pattern_to_glob "imagexxname"` is unchanged. -/
theorem pattern_to_glob_correct :
    (∀ (u v : List Char) (n : Nat), (∀ c ∈ u, c ≠ 'x') → v.head? ≠ some 'x' → 3 ≤ n →
      pattern_to_glob ⟨u ++ List.replicate n 'x' ++ v⟩ = ⟨u ++ '*' :: (pattern_to_glob ⟨v⟩).data⟩) ∧
    (∀ (u v : List Char) (n : Nat), (∀ c ∈ u, c ≠ 'x') → v.head? ≠ some 'x' → n < 3 →
      pattern_to_glob ⟨u ++ List.replicate n 'x' ++ v⟩
        = ⟨u ++ List.replicate n 'x' ++ (pattern_to_glob ⟨v⟩).data⟩) ∧
    pattern_to_glob "imagexxxname" = "image*name" ∧
    pattern_to_glob "imagexxname" = "imagexxname" := by
  refine ⟨fun u v n hu hv hn => ?_, fun u v n hu hv hn => ?_, by decide, by decide⟩
  · have key : globAux 0 (u ++ List.replicate n 'x' ++ v) = u ++ '*' :: globAux 0 v := by
      rw [List.append_assoc, globAux_no_x u hu, globAux_replicate n 0 v, Nat.zero_add,
        globAux_head_ne n v hv]
      simp [emitRun, hn]
    simpa [pattern_to_glob] using congrArg String.mk key
  · have key : globAux 0 (u ++ List.replicate n 'x' ++ v)
        = u ++ List.replicate n 'x' ++ globAux 0 v := by
      rw [List.append_assoc, globAux_no_x u hu, globAux_replicate n 0 v, Nat.zero_add,
        globAux_head_ne n v hv, List.append_assoc]
      simp [emitRun, Nat.not_le.mpr hn]
    simpa [pattern_to_glob] using congrArg String.mk key

/-- Witness for **C5**: the general run rules applied at `image`/`xxx`/`name`
and at a two-`x` run. -/
theorem pattern_to_glob_correct_witness :
    pattern_to_glob ⟨"image".data ++ List.replicate 3 'x' ++ "name".data⟩
      = ⟨"image".data ++ '*' :: (pattern_to_glob ⟨"name".data⟩).data⟩ ∧
    pattern_to_glob ⟨"ab".data ++ List.replicate 2 'x' ++ "cd".data⟩
      = ⟨"ab".data ++ List.replicate 2 'x' ++ (pattern_to_glob ⟨"cd".data⟩).data⟩ :=
  ⟨pattern_to_glob_correct.1 "image".data "name".data 3 (by decide) (by decide) (by decide),
   pattern_to_glob_correct.2.1 "ab".data "cd".data 2 (by decide) (by decide) (by decide)⟩

/-- **C6** (confirmed).  With `docker load` succeeding as a subprocess, the
loaded references are exactly those extracted from the `Loaded image[ ID]: <ref>`
lines (case-insensitive) of its output; when no line is recognised the result
is a `RuntimeError`, never an empty success. -/
theorem docker_load_parses_or_fails :
    (∀ (w : DockerWorld) (tarball : String) (outLines : List String),
      w.load tarball = .ok outLines →
      ((∃ l ∈ outLines, (parseLoadedLine l).isSome) →
        docker_load w false tarball = .ok (outLines.filterMap parseLoadedLine)) ∧
      ((∀ l ∈ outLines, parseLoadedLine l = none) →
        ∀ refs, docker_load w false tarball ≠ .ok refs)) ∧
    parseLoadedLine "Loaded image: repo/app:1.0" = some "repo/app:1.0" ∧
    parseLoadedLine "loaded image ID: sha256:abc" = some "sha256:abc" ∧
    parseLoadedLine "5a3ea8f0f63f: Loading layer" = none := by
  refine ⟨fun w tarball outLines hw => ⟨fun hex => ?_, fun hall refs hok => ?_⟩,
    by decide, by decide, by decide⟩
  · have hne : (outLines.filterMap parseLoadedLine).isEmpty = false := by
      rcases hex with ⟨l, hl, hsome⟩
      rcases h : (outLines.filterMap parseLoadedLine).isEmpty with _ | _
      · rfl
      · rw [List.isEmpty_iff, List.filterMap_eq_nil_iff] at h
        rw [h l hl] at hsome
        exact absurd hsome (by simp)
    simp only [docker_load, Bool.false_eq_true, if_false, hw, hne]
  · have hnil : outLines.filterMap parseLoadedLine = [] := List.filterMap_eq_nil_iff.mpr hall
    simp only [docker_load, Bool.false_eq_true, if_false, hw, hnil] at hok
    simp at hok

/-- Witness for **C6**: a concrete load whose output holds one recognised line,
and a concrete load whose output holds none. -/
theorem docker_load_parses_or_fails_witness :
    docker_load ⟨fun _ => .ok ["5a3e: Loading layer", "Loaded image: app:1.0"],
        fun _ _ => .ok (), fun _ => .ok (), fun _ => .ok ()⟩ false "app.tar"
      = .ok ["app:1.0"] ∧
    docker_load ⟨fun _ => .ok ["5a3e: Loading layer"],
        fun _ _ => .ok (), fun _ => .ok (), fun _ => .ok ()⟩ false "app.tar"
      ≠ .ok [] := by
  constructor
  · exact (docker_load_parses_or_fails.1
      ⟨fun _ => .ok ["5a3e: Loading layer", "Loaded image: app:1.0"],
        fun _ _ => .ok (), fun _ => .ok (), fun _ => .ok ()⟩
      "app.tar" ["5a3e: Loading layer", "Loaded image: app:1.0"] rfl).1 (by decide)
  · exact (docker_load_parses_or_fails.1
      ⟨fun _ => .ok ["5a3e: Loading layer"],
        fun _ _ => .ok (), fun _ => .ok (), fun _ => .ok ()⟩
      "app.tar" ["5a3e: Loading layer"] rfl).2 (by decide) []

/-- A docker oracle whose every operation succeeds and whose load output names
one image. -/
def okWorld : DockerWorld :=
  ⟨fun _ => .ok ["Loaded image: app:1.0"], fun _ _ => .ok (), fun _ => .ok (),
   fun _ => .ok ()⟩

/-- **C1** (confirmed).  A reference already `done` is skipped: processing it
contributes nothing (the loop behaves as if the reference were absent) and in
particular no tag invocation carries it as source; consequently, a second run
over the same manifest and directory, starting from the progress persisted by
a first run in which every pattern matched and every load/tag/push succeeded,
performs zero tag and zero push invocations (dry-run off both times). -/
theorem idempotent_resume (w : DockerWorld) (cleanup : Bool) (ep org : String)
    (af : Option String) (dir : List String) (loadRefs : String → List String)
    (pats : List String) (p0 p : Progress) (r : String) :
    (lookupKey p r = some "done" →
      (∀ refs, processRefs w false cleanup ep org refs p
        = processRefs w false cleanup ep org (refs.filter (fun x => x ≠ r)) p) ∧
      (∀ refs tgt, Ev.tag r tgt ∉ (processRefs w false cleanup ep org refs p).2.1)) ∧
    ((∀ pat ∈ pats, (find_matching_file dir pat).isSome = true) →
      (∀ t, docker_load w false t = .ok (loadRefs t)) →
      (∀ s t, w.tag s t = .ok ()) →
      (∀ t, w.push t = .ok ()) →
      (runPatterns w ⟨af, some ep, some org, cleanup⟩ dir false pats
        (runPatterns w ⟨af, some ep, some org, cleanup⟩ dir false pats p0).1).2.1.filter
          isTagPush = []) := by
  constructor
  · intro hdone
    exact ⟨fun refs => processRefs_skip_filter w false cleanup ep org r refs p hdone,
      fun refs tgt => processRefs_no_tag_done w false cleanup ep org r refs p hdone tgt⟩
  · intro hm hload htag hpush
    have h1 := runPatterns_success w af ep org cleanup dir loadRefs hload htag hpush pats p0 hm
    exact (runPatterns_all_done w af ep org cleanup dir loadRefs hload pats
      (runPatterns w ⟨af, some ep, some org, cleanup⟩ dir false pats p0).1 hm
      (fun pat hp tb hf r' hr' => h1.2.2 pat hp tb hf r' hr')).2.1

/-- Witness for **C1**: with a concrete all-success docker oracle, a `done`
reference is skipped and the second of two runs performs no tag/push. -/
theorem idempotent_resume_witness :
    (processRefs okWorld false false "swr.example.com" "myorg" ["app:1.0"]
        [("app:1.0", "done")]
      = processRefs okWorld false false "swr.example.com" "myorg"
          ((["app:1.0"] : List String).filter (fun x => x ≠ "app:1.0"))
          [("app:1.0", "done")]) ∧
    (runPatterns okWorld ⟨some "m.txt", some "swr.example.com", some "myorg", false⟩
        ["app.tar"] false ["app.tar"]
        (runPatterns okWorld ⟨some "m.txt", some "swr.example.com", some "myorg", false⟩
          ["app.tar"] false ["app.tar"] []).1).2.1.filter isTagPush = [] := by
  constructor
  · exact ((idempotent_resume okWorld false "swr.example.com" "myorg" (some "m.txt")
      ["app.tar"] (fun _ => ["app:1.0"]) ["app.tar"] [] [("app:1.0", "done")]
      "app:1.0").1 (by decide)).1 ["app:1.0"]
  · exact (idempotent_resume okWorld false "swr.example.com" "myorg" (some "m.txt")
      ["app.tar"] (fun _ => ["app:1.0"]) ["app.tar"] [] [] "app:1.0").2
      (by decide) (fun t => rfl) (fun s t => rfl) (fun t => rfl)

/-- **C2** (confirmed).  Any `RuntimeError` from the load/tag/push invocations
records `failed: <message>` keyed by the original manifest pattern and
persists it; a load failure creates no new `done` entry; and the pattern loop
continues with the remaining patterns instead of aborting. -/
theorem failure_isolation (w : DockerWorld) (ep org : String) (af : Option String)
    (cleanup : Bool) (dir : List String) (pattern : String) (rest : List String)
    (p : Progress) (tarball : String)
    (hfind : find_matching_file dir pattern = some tarball) :
    (∀ e, w.load tarball = .error e →
      process_image w ⟨af, some ep, some org, cleanup⟩ dir pattern p false
        = .ok (setKey p pattern ("failed: " ++ e),
               [Ev.load tarball, Ev.save (setKey p pattern ("failed: " ++ e))]) ∧
      lookupKey (setKey p pattern ("failed: " ++ e)) pattern = some ("failed: " ++ e) ∧
      (∀ k, lookupKey (setKey p pattern ("failed: " ++ e)) k = some "done" →
        lookupKey p k = some "done") ∧
      runPatterns w ⟨af, some ep, some org, cleanup⟩ dir false (pattern :: rest) p
        = ((runPatterns w ⟨af, some ep, some org, cleanup⟩ dir false rest
              (setKey p pattern ("failed: " ++ e))).1,
           [Ev.load tarball, Ev.save (setKey p pattern ("failed: " ++ e))]
             ++ (runPatterns w ⟨af, some ep, some org, cleanup⟩ dir false rest
                  (setKey p pattern ("failed: " ++ e))).2.1,
           (runPatterns w ⟨af, some ep, some org, cleanup⟩ dir false rest
              (setKey p pattern ("failed: " ++ e))).2.2)) ∧
    (∀ refs p1 evs e, docker_load w false tarball = .ok refs →
      processRefs w false cleanup ep org refs p = (p1, evs, some e) →
      process_image w ⟨af, some ep, some org, cleanup⟩ dir pattern p false
        = .ok (setKey p1 pattern ("failed: " ++ e),
               Ev.load tarball
                 :: (evs ++ [Ev.save (setKey p1 pattern ("failed: " ++ e))])) ∧
      lookupKey (setKey p1 pattern ("failed: " ++ e)) pattern = some ("failed: " ++ e) ∧
      runPatterns w ⟨af, some ep, some org, cleanup⟩ dir false (pattern :: rest) p
        = ((runPatterns w ⟨af, some ep, some org, cleanup⟩ dir false rest
              (setKey p1 pattern ("failed: " ++ e))).1,
           (Ev.load tarball
             :: (evs ++ [Ev.save (setKey p1 pattern ("failed: " ++ e))]))
             ++ (runPatterns w ⟨af, some ep, some org, cleanup⟩ dir false rest
                  (setKey p1 pattern ("failed: " ++ e))).2.1,
           (runPatterns w ⟨af, some ep, some org, cleanup⟩ dir false rest
              (setKey p1 pattern ("failed: " ++ e))).2.2)) ∧
    (∀ r rest' e, lookupKey p r ≠ some "done" →
      w.tag r (build_target_ref ep org r) = .error e →
      processRefs w false cleanup ep org (r :: rest') p
        = (p, [Ev.tag r (build_target_ref ep org r)], some e)) ∧
    (∀ r rest' e, lookupKey p r ≠ some "done" →
      w.tag r (build_target_ref ep org r) = .ok () →
      w.push (build_target_ref ep org r) = .error e →
      processRefs w false cleanup ep org (r :: rest') p
        = (p, [Ev.tag r (build_target_ref ep org r),
               Ev.push (build_target_ref ep org r)], some e)) := by
  refine ⟨fun e he => ?_, fun refs p1 evs e hl hrec => ?_, fun r rest' e hnd ht => ?_,
    fun r rest' e hnd ht hp => ?_⟩
  · have hcore := process_image_core_load_error w cleanup ep org pattern tarball p e he
    have hok : process_image w ⟨af, some ep, some org, cleanup⟩ dir pattern p false
        = .ok (setKey p pattern ("failed: " ++ e),
               [Ev.load tarball, Ev.save (setKey p pattern ("failed: " ++ e))]) := by
      rw [process_image_found w af ep org cleanup dir pattern tarball p false hfind, hcore]
    exact ⟨hok, lookupKey_setKey_self p pattern _,
      fun k => lookupKey_setKey_failed p pattern e k,
      runPatterns_cons w ⟨af, some ep, some org, cleanup⟩ dir false pattern rest p _ hok⟩
  · have hcore : process_image_core w false cleanup ep org pattern tarball p
        = (setKey p1 pattern ("failed: " ++ e),
           Ev.load tarball :: (evs ++ [Ev.save (setKey p1 pattern ("failed: " ++ e))])) := by
      rw [process_image_core_refs w cleanup ep org pattern tarball p refs hl, hrec]
    have hok : process_image w ⟨af, some ep, some org, cleanup⟩ dir pattern p false
        = .ok (setKey p1 pattern ("failed: " ++ e),
               Ev.load tarball :: (evs ++ [Ev.save (setKey p1 pattern ("failed: " ++ e))])) := by
      rw [process_image_found w af ep org cleanup dir pattern tarball p false hfind, hcore]
    exact ⟨hok, lookupKey_setKey_self p1 pattern _,
      runPatterns_cons w ⟨af, some ep, some org, cleanup⟩ dir false pattern rest p _ hok⟩
  · simp [processRefs, hnd, docker_tag, docker_push, ht]
  · simp [processRefs, hnd, docker_tag, docker_push, ht, hp]

/-- Witness for **C2**: a concrete failing load records `failed: boom` keyed by
the pattern and the next pattern is still processed. -/
theorem failure_isolation_witness :
    process_image ⟨fun _ => .error "boom", fun _ _ => .ok (), fun _ => .ok (),
        fun _ => .ok ()⟩ ⟨some "m.txt", some "swr.example.com", some "myorg", false⟩
        ["app.tar"] "app.tar" [] false
      = .ok ([("app.tar", "failed: boom")],
             [Ev.load "app.tar", Ev.save [("app.tar", "failed: boom")]]) ∧
    lookupKey [("app.tar", "failed: boom")] "app.tar" = some ("failed: boom") := by
  have h := (failure_isolation
    ⟨fun _ => .error "boom", fun _ _ => .ok (), fun _ => .ok (), fun _ => .ok ()⟩
    "swr.example.com" "myorg" (some "m.txt") false ["app.tar"] "app.tar" [] [] "app.tar"
    (by decide)).1 "boom" rfl
  exact ⟨h.1, h.2.1⟩

/-- **C10** (confirmed).  When a tarball loads two references and the first is
tagged, pushed and recorded `done` before the second one's tag fails, the
`done` entry survives: the final progress simultaneously holds `done` keyed by
the first reference and `failed: <message>` keyed by the pattern. -/
theorem no_rollback (w : DockerWorld) (cleanup : Bool)
    (ep org pattern tarball : String) (p : Progress) (r1 r2 e : String)
    (hload : docker_load w false tarball = .ok [r1, r2])
    (h1 : lookupKey p r1 ≠ some "done")
    (h2 : lookupKey p r2 ≠ some "done")
    (h21 : r2 ≠ r1)
    (hpat : pattern ≠ r1)
    (htag1 : w.tag r1 (build_target_ref ep org r1) = .ok ())
    (hpush1 : w.push (build_target_ref ep org r1) = .ok ())
    (htag2 : w.tag r2 (build_target_ref ep org r2) = .error e) :
    lookupKey (process_image_core w false cleanup ep org pattern tarball p).1 r1
      = some "done" ∧
    lookupKey (process_image_core w false cleanup ep org pattern tarball p).1 pattern
      = some ("failed: " ++ e) := by
  have h2' : lookupKey (setKey p r1 "done") r2 ≠ some "done" := by
    rw [lookupKey_setKey_ne p r1 "done" r2 h21]; exact h2
  have hfst : (processRefs w false cleanup ep org [r1, r2] p).1 = setKey p r1 "done" := by
    simp [processRefs, h1, h2', docker_tag, docker_push, htag1, hpush1, htag2]
  have herr : (processRefs w false cleanup ep org [r1, r2] p).2.2 = some e := by
    simp [processRefs, h1, h2', docker_tag, docker_push, htag1, hpush1, htag2]
  rcases hrec : processRefs w false cleanup ep org [r1, r2] p with ⟨pp, evs, err⟩
  rw [hrec] at hfst herr
  simp only at hfst herr
  subst hfst
  subst herr
  have hcore : (process_image_core w false cleanup ep org pattern tarball p).1
      = setKey (setKey p r1 "done") pattern ("failed: " ++ e) := by
    rw [process_image_core_refs w cleanup ep org pattern tarball p [r1, r2] hload, hrec]
  rw [hcore]
  refine ⟨?_, lookupKey_setKey_self _ pattern _⟩
  rw [lookupKey_setKey_ne _ pattern _ r1 (fun he => hpat he.symm)]
  exact lookupKey_setKey_self p r1 "done"

/-- A docker oracle that loads two images and fails to tag the second. -/
def twoRefWorld : DockerWorld :=
  ⟨fun _ => .ok ["Loaded image: a:1", "Loaded image: b:1"],
   fun s _ => if s = "b:1" then .error "boom" else .ok (),
   fun _ => .ok (), fun _ => .ok ()⟩

/-- Witness for **C10**: the concrete two-image tarball keeps `a:1 ↦ done`
next to `app.tar ↦ failed: boom`. -/
theorem no_rollback_witness :
    lookupKey (process_image_core twoRefWorld false false "swr.example.com" "myorg"
      "app.tar" "app.tar" []).1 "a:1" = some "done" ∧
    lookupKey (process_image_core twoRefWorld false false "swr.example.com" "myorg"
      "app.tar" "app.tar" []).1 "app.tar" = some ("failed: " ++ "boom") :=
  no_rollback twoRefWorld false "swr.example.com" "myorg" "app.tar" "app.tar" []
    "a:1" "b:1" "boom" rfl (by decide) (by decide) (by decide) (by decide)
    rfl rfl rfl

/-- A docker oracle that is never reached. -/
def cexWorld : DockerWorld :=
  ⟨fun _ => .error "unreachable", fun _ _ => .error "unreachable",
   fun _ => .error "unreachable", fun _ => .error "unreachable"⟩

/-- **C9, counterexample.**  With the required `swr` configuration keys absent
(but the config file and manifest present), a run whose single pattern is
missing on disk completes normally — a `finished` result, i.e. exit status 0 —
after mutating and persisting the progress record; the process neither reports
the configuration error nor exits non-zero before pipeline work starts. -/
theorem config_error_counterexample :
    main_upload cexWorld true ⟨some "manifest.txt", none, none, false⟩ true
        ["#镜像", "app.tar"] [] false []
      = .finished [("app.tar", "missing")] [Ev.save [("app.tar", "missing")]] ∧
    ([("app.tar", "missing")] : Progress) ≠ [] := by
  constructor <;> decide

/-- **C9** (corrected/amended).  A missing config file, an unset `assets_file`
key, or a nonexistent manifest each exit with status 1 before any pipeline
work.  A missing `swr.endpoint`/`swr.org` key, however, is only detected
inside per-pattern processing: no load/tag/push is ever invoked, and when some
pattern matches a file the run dies from an uncaught `KeyError` — after
matching (and progress mutation for earlier missing patterns) has already
happened; when no pattern matches, the run even finishes with exit status
0. -/
theorem config_error_handling (w : DockerWorld) (cfg : Cfg) (me : Bool)
    (ml dir : List String) (d : Bool) (p0 : Progress) :
    (main_upload w false cfg me ml dir d p0 = .earlyExit 1) ∧
    (cfg.assets_file = none → ∀ ce, main_upload w ce cfg me ml dir d p0 = .earlyExit 1) ∧
    (∀ ce, main_upload w ce cfg false ml dir d p0 = .earlyExit 1) ∧
    ((cfg.swr_endpoint = none ∨ cfg.swr_org = none) →
      ((traceOf (main_upload w true cfg true ml dir d p0)).filter isExternalOp = []) ∧
      (∀ a, cfg.assets_file = some a →
        (∃ pat ∈ get_image_patterns ml, (find_matching_file dir pat).isSome = true) →
        ∃ pr t, main_upload w true cfg true ml dir d p0 = .crashed pr t)) := by
  refine ⟨rfl, fun haf ce => ?_, fun ce => ?_, fun hswr => ?_⟩
  · cases ce <;> simp [main_upload, haf]
  · cases ce <;> cases haf : cfg.assets_file <;> simp [main_upload, haf]
  · cases haf : cfg.assets_file with
    | none =>
      constructor
      · simp [main_upload, haf, traceOf]
      · intro a ha
        exact absurd ha (by simp)
    | some a =>
      by_cases hpats : (get_image_patterns ml).isEmpty = true
      · constructor
        · simp [main_upload, haf, hpats, traceOf]
        · intro a' _ hex
          rcases hex with ⟨x, hx, _⟩
          rw [List.isEmpty_iff.mp hpats] at hx
          exact absurd hx (by simp)
      · rcases hrp : runPatterns w cfg dir d (get_image_patterns ml) p0 with ⟨pp, tt, c⟩
        have hns := runPatterns_no_swr w cfg dir d hswr (get_image_patterns ml) p0
        rw [hrp] at hns
        constructor
        · cases c <;>
            simp only [main_upload, haf, hpats, Bool.not_true, Bool.false_eq_true,
              if_false, hrp, traceOf] <;>
            exact hns.1
        · intro a' _ hex
          have hc : c = true := hns.2.mpr hex
          subst hc
          refine ⟨pp, tt, ?_⟩
          simp [main_upload, haf, hpats, hrp, traceOf]

/-- Witness for **C9**: concrete early exits, and a concrete crash when the
`swr` keys are absent while a pattern matches. -/
theorem config_error_handling_witness :
    main_upload cexWorld false ⟨some "manifest.txt", some "h", some "o", false⟩ true
        ["#镜像", "app.tar"] ["app.tar"] false [] = .earlyExit 1 ∧
    (∃ pr t, main_upload cexWorld true ⟨some "manifest.txt", none, none, false⟩ true
        ["#镜像", "app.tar"] ["app.tar"] false [] = .crashed pr t) := by
  constructor
  · exact (config_error_handling cexWorld ⟨some "manifest.txt", some "h", some "o", false⟩
      true ["#镜像", "app.tar"] ["app.tar"] false []).1
  · exact ((config_error_handling cexWorld ⟨some "manifest.txt", none, none, false⟩
      true ["#镜像", "app.tar"] ["app.tar"] false []).2.2.2 (Or.inl rfl)).2
      "manifest.txt" rfl ⟨"app.tar", by decide, by decide⟩

/-- **C7** (confirmed).  `validate` attempts a match for every pattern of
every section: `found` collects exactly the pairs with a resolved file name,
`missing` exactly the pairs without a match, both in traversal order; the
`--validate` exit code is non-zero exactly when `missing` is non-empty; and
the progress file passes through untouched. -/
theorem validate_audit (manifestLines dir : List String) (progressFile : Option Progress) :
    validate manifestLines dir
      = ((sectionPairs (parse_manifest manifestLines)).filterMap (foundEntry dir),
         (sectionPairs (parse_manifest manifestLines)).filter
           (fun sp => (find_matching_file dir sp.2).isNone)) ∧
    (main_validate manifestLines dir progressFile).1
      = (if (validate manifestLines dir).2.isEmpty then 0 else 1) ∧
    (main_validate manifestLines dir progressFile).2 = progressFile := by
  refine ⟨?_, rfl, rfl⟩
  rw [validate, validate_outer_fold dir (parse_manifest manifestLines) ([], [])]
  simp

/-- **C8** (confirmed).  Resetting named keys removes exactly those keys and
leaves every other entry's value unchanged; resetting with no names empties
the whole record. -/
theorem resetProgress_frame (p : Progress) (names : List String)
    (hnd : (p.map Prod.fst).Nodup) :
    (¬names.isEmpty → ∀ k,
      lookupKey (resetProgress names p) k = if k ∈ names then none else lookupKey p k) ∧
    (names.isEmpty → resetProgress names p = []) := by
  constructor
  · intro hne k
    rw [resetProgress, if_neg hne]
    exact lookupKey_foldl_popKey names p hnd k
  · intro he
    rw [resetProgress, if_pos he]

/-- Witness for **C8**: a concrete record where resetting `"myimage:tag"`
removes only that key and the unrelated `done` entry survives. -/
theorem resetProgress_frame_witness :
    lookupKey (resetProgress ["myimage:tag"] [("other:1", "done"), ("myimage:tag", "failed: push")]) "myimage:tag" = none ∧
    lookupKey (resetProgress ["myimage:tag"] [("other:1", "done"), ("myimage:tag", "failed: push")]) "other:1" = some "done" := by
  have h := resetProgress_frame [("other:1", "done"), ("myimage:tag", "failed: push")]
    ["myimage:tag"] (by decide)
  refine ⟨?_, ?_⟩
  · rw [(h.1 (by decide) "myimage:tag")]; decide
  · rw [(h.1 (by decide) "other:1")]; decide

end UploadImages
